import Mathlib

/-!
Verification of the border-removal core of `src/app.py`
(Kumiko Manga/Comics Panel Extractor WebUI).

The development shallowly embeds the two functions with algorithmic
content, `_find_best_border_line` and `remove_border`, together with the
NumPy/OpenCV primitives they use.  Images are function-backed 2-D arrays,
Python `range` objects are explicit integer lists, and the floating-point
scores of the scanner are modelled with exact rationals (the spec states
the scoring formulas as real arithmetic).  OpenCV routines that are
external library code (`findContours`, `drawContours` polygon filling,
`ximgproc.thinning`) are passed in as an oracle record; theorems that
need facts about them carry the corresponding soundness hypotheses
(for instance: every reported contour is a nonempty list of foreground
points of the queried mask).
-/

set_option maxRecDepth 10000

namespace Kumiko

/-- A 2-D image: height, width, and a pixel function (row, column).
The pixel function is total; all in-range behaviour mirrors NumPy. -/
structure Img (α : Type) where
  h : Nat
  w : Nat
  pix : Nat → Nat → α

/-- A color pixel in OpenCV channel order (blue, green, red), 8-bit values. -/
structure BGR where
  b : Nat
  g : Nat
  r : Nat
deriving DecidableEq

/-- A contour point in OpenCV order: `(x, y)` = (column, row). -/
abbrev Pt := Nat × Nat

/-- A Python `range(start, stop, step)` object. -/
structure ScanRange where
  start : Int
  stop : Int
  step : Int
deriving DecidableEq

/-- Number of elements of `range(s, e, st)`, exactly as CPython computes it
(`(e - s + st - 1) // st` for positive step, symmetrically for negative,
clamped to zero). -/
def rangeLen (s e st : Int) : Nat :=
  if 0 < st then ((e - s + st - 1) / st).toNat
  else if st < 0 then ((s - e - st - 1) / (-st)).toNat
  else 0

/-- The elements of `range(s, e, st)` in iteration order. -/
def rangeList (s e st : Int) : List Int :=
  (List.range (rangeLen s e st)).map (fun k : Nat => s + (k : Int) * st)

/-- Iteration order of a Python range. -/
def ScanRange.toList (r : ScanRange) : List Int :=
  rangeList r.start r.stop r.step

/-- NumPy index semantics for a (possibly negative) Python index into an
axis of extent `n`: a negative index counts from the end. -/
def npIdx (i : Int) (n : Nat) : Nat :=
  if 0 ≤ i then i.toNat else (i + n).toNat

/-- `np.count_nonzero(mask[i, :])`: number of nonzero pixels of row `i`. -/
def countRow (m : Img Nat) (i : Int) : Nat :=
  ((List.range m.w).filter (fun j => m.pix (npIdx i m.h) j != 0)).length

/-- `np.count_nonzero(mask[:, j])`: number of nonzero pixels of column `j`. -/
def countCol (m : Img Nat) (j : Int) : Nat :=
  ((List.range m.h).filter (fun i => m.pix i (npIdx j m.w) != 0)).length

/-- The continuity score of candidate line `i` (src/app.py lines 62-65):
row count when `axis == 1`, column count otherwise. -/
def lineScore (m : Img Nat) (axis : Nat) (i : Int) : Nat :=
  if axis = 1 then countRow m i else countCol m i

/-- `position_weight = progress / total_span` of src/app.py lines 67-68,
with `progress = abs(i - start)` and `total_span = abs(stop - start)`. -/
def position_weight (r : ScanRange) (i : Int) : ℚ :=
  ((i - r.start).natAbs : ℚ) / (((r.stop - r.start).natAbs : ℚ))

/-- `score = continuity_score * (1 + position_weight)` (src/app.py line 70). -/
def combined_score (m : Img Nat) (axis : Nat) (r : ScanRange) (i : Int) : ℚ :=
  (lineScore m axis i : ℚ) * (1 + position_weight r i)

/-- One iteration of the scan loop (src/app.py lines 72-73): the running
`(best_index, max_score)` pair is overwritten whenever `score >= max_score`. -/
def bestStep (f : Int → ℚ) (acc : Int × ℚ) (i : Int) : Int × ℚ :=
  if f i ≥ acc.2 then (i, f i) else acc

/-- `_find_best_border_line` of src/app.py lines 50-75: start from
`(best_index, max_score) = (scan_range.start, -1)`, return immediately on a
zero-span range, otherwise fold the scoring loop over the range. -/
def find_best_border_line (m : Img Nat) (axis : Nat) (r : ScanRange) : Int :=
  if (r.stop - r.start).natAbs = 0 then r.start
  else (r.toList.foldl (bestStep (combined_score m axis r)) (r.start, -1)).1

/-! ### The border remover (`remove_border`, src/app.py lines 78-143) -/

/-- `cv.copyMakeBorder(img, p, p, p, p, BORDER_CONSTANT, value=v)`:
a constant border of `p` pixels on each side. -/
def copyMakeBorder (img : Img BGR) (p : Nat) (v : BGR) : Img BGR :=
  ⟨img.h + 2 * p, img.w + 2 * p, fun i j =>
    if p ≤ i ∧ i < p + img.h ∧ p ≤ j ∧ j < p + img.w
    then img.pix (i - p) (j - p) else v⟩

def white : BGR := ⟨255, 255, 255⟩

/-- Step 1 of `remove_border`: 15-pixel constant white padding
(src/app.py lines 87-92). -/
def paddedOf (panel : Img BGR) : Img BGR := copyMakeBorder panel 15 white

/-- The 8-bit BGR-to-gray conversion of OpenCV, in its exact 14-bit
fixed-point form: `(1868*B + 9617*G + 4899*R + 8192) >> 14`. -/
def bgr2gray (c : BGR) : Nat := (1868 * c.b + 9617 * c.g + 4899 * c.r + 8192) / 16384

/-- `cv.cvtColor(img, COLOR_BGR2GRAY)`. -/
def cvtColorGray (img : Img BGR) : Img Nat :=
  ⟨img.h, img.w, fun i j => bgr2gray (img.pix i j)⟩

/-- `cv.threshold(gray, 240, 255, THRESH_BINARY_INV)`: intensity above 240
becomes 0, everything else 255 (src/app.py line 95). -/
def thresholdInv240 (img : Img Nat) : Img Nat :=
  ⟨img.h, img.w, fun i j => if 240 < img.pix i j then 0 else 255⟩

/-- The binary mask `remove_border` extracts contours from:
pad, gray-convert, inverse-threshold (src/app.py lines 89-95). -/
def threshOf (panel : Img BGR) : Img Nat :=
  thresholdInv240 (cvtColorGray (paddedOf panel))

/-- Cyclic cross-product sum of the shoelace formula, closing the polygon
back to `first`. -/
def crossSum (first : Pt) : List Pt → ℚ
  | [] => 0
  | [p] => (p.1 : ℚ) * (first.2 : ℚ) - (first.1 : ℚ) * (p.2 : ℚ)
  | p :: q :: t =>
      ((p.1 : ℚ) * (q.2 : ℚ) - (q.1 : ℚ) * (p.2 : ℚ)) + crossSum first (q :: t)

/-- `cv.contourArea`: half the absolute shoelace sum of the closed polygon. -/
def contourArea (c : List Pt) : ℚ :=
  match c with
  | [] => 0
  | p :: t => |crossSum p (p :: t)| / 2

/-- Python `max(x :: xs, key=f)`: first element attaining the maximal key
(later elements replace only on strictly greater key). -/
def maxBy (f : List Pt → ℚ) (x : List Pt) (xs : List (List Pt)) : List Pt :=
  xs.foldl (fun b a => if f a > f b then a else b) x

/-- `cv.boundingRect` output: offset plus extent. -/
structure Rect where
  x : Nat
  y : Nat
  w : Nat
  h : Nat

/-- `cv.boundingRect(contour)`: the tight axis-aligned box of the points
(extent is max minus min plus one); degenerate on an empty contour. -/
def boundingRect (c : List Pt) : Rect :=
  match c with
  | [] => ⟨0, 0, 0, 0⟩
  | p :: t =>
    let minX := (t.map Prod.fst).foldl min p.1
    let maxX := (t.map Prod.fst).foldl max p.1
    let minY := (t.map Prod.snd).foldl min p.2
    let maxY := (t.map Prod.snd).foldl max p.2
    ⟨minX, minY, maxX - minX + 1, maxY - minY + 1⟩

/-- `np.zeros_like(gray)`. -/
def zerosLike (m : Img Nat) : Img Nat := ⟨m.h, m.w, fun _ _ => 0⟩

def erodeOffsets : List (Int × Int) :=
  [(-1, -1), (-1, 0), (-1, 1), (0, -1), (0, 0), (0, 1), (1, -1), (1, 0), (1, 1)]

/-- One erosion by the 3x3 all-ones element; pixels beyond the border do not
constrain the minimum (the OpenCV default border for erosion). -/
def erodeOnce (m : Img Nat) : Img Nat :=
  ⟨m.h, m.w, fun i j =>
    erodeOffsets.foldl (fun acc d =>
      let i2 : Int := (i : Int) + d.1
      let j2 : Int := (j : Int) + d.2
      if 0 ≤ i2 ∧ i2 < (m.h : Int) ∧ 0 ≤ j2 ∧ j2 < (m.w : Int)
      then min acc (m.pix i2.toNat j2.toNat) else acc) (m.pix i j)⟩

/-- `cv.erode(m, np.ones((3,3)), iterations=n)`. -/
def erodeIter (m : Img Nat) : Nat → Img Nat
  | 0 => m
  | n + 1 => erodeOnce (erodeIter m n)

/-- `cv.subtract` on 8-bit images: pixelwise saturating subtraction. -/
def subtractImg (a : Img Nat) (b : Img Nat) : Img Nat :=
  ⟨a.h, a.w, fun i j => a.pix i j - b.pix i j⟩

/-- A NumPy subview `m[y:y+hh, x:x+ww]`. -/
def subImg (m : Img Nat) (y x hh ww : Nat) : Img Nat :=
  ⟨hh, ww, fun i j => m.pix (y + i) (x + j)⟩

/-- The crop `m[y1:y2, x1:x2]` used at src/app.py line 138 (indices are
nonnegative and within bounds in every reachable use). -/
def cropImg (m : Img BGR) (y1 y2 x1 x2 : Int) : Img BGR :=
  ⟨(y2 - y1).toNat, (x2 - x1).toNat, fun i j =>
    m.pix (y1.toNat + i) (x1.toNat + j)⟩

/-- The OpenCV primitives that are external library code, supplied as an
oracle: `cv.findContours(thresh, RETR_EXTERNAL, CHAIN_APPROX_SIMPLE)`,
the polygon fill of `cv.drawContours(zeros, [c], -1, 255, FILLED)`, and
`cv.ximgproc.thinning` (with its identity fallback). -/
structure CVOracle where
  findContoursO : Img Nat → List (List Pt)
  fillO : Img Nat → List Pt → Img Nat
  thinningO : Img Nat → Img Nat

/-- Every contour the oracle reports for a mask is a nonempty point list
lying on nonzero pixels of that mask; `cv.findContours` guarantees this. -/
def ContoursSound (o : CVOracle) (t : Img Nat) : Prop :=
  ∀ c ∈ o.findContoursO t, c ≠ [] ∧ ∀ p ∈ c, t.pix p.2 p.1 ≠ 0

/-- `int(n * frac)` of src/app.py lines 115-117 (truncation equals floor for
the nonnegative products that occur). -/
def searchEnd (n : Nat) (frac : ℚ) : Int := ⌊(n : ℚ) * frac⌋

/-- The skeleton mask restricted to the bounding rectangle
(src/app.py lines 105-113): fill the largest contour, subtract a 5-fold
erosion to get a hollow band, thin it, and take the `[y:y+h, x:x+w]` view. -/
def roiOf (o : CVOracle) (panel : Img BGR) (largest : List Pt) : Img Nat :=
  let gray := cvtColorGray (paddedOf panel)
  let filled := o.fillO (zerosLike gray) largest
  let hollow := subtractImg filled (erodeIter filled 5)
  let skel := o.thinningO hollow
  subImg skel (boundingRect largest).y (boundingRect largest).x
    (boundingRect largest).h (boundingRect largest).w

/-- The four best border lines (src/app.py lines 115-128). -/
structure Scan4 where
  bt : Int
  bb : Int
  bl : Int
  br : Int

/-- The four inside-out scans of src/app.py lines 120-128:
`range(tse, -1, -1)`, `range(h - tse, h)`, `range(lse, -1, -1)`,
`range(w - lse, w)` over the restricted skeleton. -/
def borderScan (o : CVOracle) (frac : ℚ) (panel : Img BGR) (largest : List Pt) : Scan4 :=
  let b := boundingRect largest
  let roi := roiOf o panel largest
  let tse := searchEnd b.h frac
  let lse := searchEnd b.w frac
  ⟨find_best_border_line roi 1 ⟨tse, -1, -1⟩,
   find_best_border_line roi 1 ⟨(b.h : Int) - tse, (b.h : Int), 1⟩,
   find_best_border_line roi 0 ⟨lse, -1, -1⟩,
   find_best_border_line roi 0 ⟨(b.w : Int) - lse, (b.w : Int), 1⟩⟩

/-- The final crop rectangle in padded coordinates. -/
structure Crop4 where
  x1 : Int
  y1 : Int
  x2 : Int
  y2 : Int

/-- Src/app.py lines 130-133: offset the scanned lines by the bounding-box
corner and the inward padding. -/
def cropRectOf (o : CVOracle) (frac : ℚ) (pad : Int) (panel : Img BGR)
    (largest : List Pt) : Crop4 :=
  let b := boundingRect largest
  let s := borderScan o frac panel largest
  ⟨(b.x : Int) + s.bl + pad, (b.y : Int) + s.bt + pad,
   (b.x : Int) + s.br - pad, (b.y : Int) + s.bb - pad⟩

/-- The body of `remove_border` after the triviality guard
(src/app.py lines 87-143). -/
def remove_border_core (o : CVOracle) (frac : ℚ) (pad : Int) (panel : Img BGR) : Img BGR :=
  match o.findContoursO (threshOf panel) with
  | [] => panel
  | c :: rest =>
    let largest := maxBy contourArea c rest
    let q := cropRectOf o frac pad panel largest
    if q.x1 ≥ q.x2 ∨ q.y1 ≥ q.y2 then panel
    else
      let cropped := cropImg (paddedOf panel) q.y1 q.y2 q.x1 q.x2
      if cropped.h < 10 ∨ cropped.w < 10 then panel
      else cropped

/-- `remove_border(panel_image, search_zone_ratio, padding)` of
src/app.py lines 78-143; `none` models a `None` argument, and the
triviality guard (line 84) returns inputs under 30 pixels unchanged. -/
def remove_border (o : CVOracle) (frac : ℚ) (pad : Int) :
    Option (Img BGR) → Option (Img BGR)
  | none => none
  | some panel =>
    if panel.h < 30 ∨ panel.w < 30 then some panel
    else some (remove_border_core o frac pad panel)

/-- A pixel buffer held by the store model: color or single-channel. -/
inductive Buf where
  | colorB : Img BGR → Buf
  | grayB : Img Nat → Buf

/-- Buffer-level instrumentation of `remove_border`: the store lists every
NumPy/OpenCV pixel buffer of one call in allocation order, with the input
panel at index 0.  Every step of src/app.py lines 84-143 allocates a fresh
buffer for its result; the single in-place pixel write of the routine is
`cv.drawContours(filled_mask, ...)` (line 106), modelled by `List.set` on
the freshly allocated zero buffer at index 4.  The returned index is the
buffer the function hands back (the input on every pass-through path, the
crop view of the padded buffer otherwise). -/
def remove_border_st (o : CVOracle) (frac : ℚ) (pad : Int) (panel : Img BGR) :
    List Buf × Nat :=
  if panel.h < 30 ∨ panel.w < 30 then ([Buf.colorB panel], 0)
  else
    let padded := paddedOf panel
    let gray := cvtColorGray padded
    let thresh := thresholdInv240 gray
    match o.findContoursO thresh with
    | [] => ([Buf.colorB panel, Buf.colorB padded, Buf.grayB gray, Buf.grayB thresh], 0)
    | c :: rest =>
      let largest := maxBy contourArea c rest
      let st4 := [Buf.colorB panel, Buf.colorB padded, Buf.grayB gray,
                  Buf.grayB thresh, Buf.grayB (zerosLike gray)]
      let filled := o.fillO (zerosLike gray) largest
      let st5 := st4.set 4 (Buf.grayB filled)
      let eroded := erodeIter filled 5
      let hollow := subtractImg filled eroded
      let skel := o.thinningO hollow
      let st8 := st5 ++ [Buf.grayB eroded, Buf.grayB hollow, Buf.grayB skel]
      let q := cropRectOf o frac pad panel largest
      if q.x1 ≥ q.x2 ∨ q.y1 ≥ q.y2 then (st8, 0)
      else
        let cropped := cropImg padded q.y1 q.y2 q.x1 q.x2
        if cropped.h < 10 ∨ cropped.w < 10 then (st8, 0)
        else (st8 ++ [Buf.colorB cropped], 8)

/-! ### Shared concrete instances used by the per-claim witnesses -/

/-- An oracle reporting no contours, a fill that leaves its target buffer
unchanged, and the identity thinning fallback of src/app.py lines 46-47. -/
def trivOracle : CVOracle := ⟨fun _ => [], fun m _ => m, fun m => m⟩

/-- A 29x40 all-white panel (below the 30-pixel floor). -/
def img2940 : Img BGR := ⟨29, 40, fun _ _ => white⟩

/-- A small all-zero mask. -/
def zeroMask3 : Img Nat := ⟨3, 3, fun _ _ => 0⟩

/-- An all-white panel of the given extent. -/
def allWhite (n m : Nat) : Img BGR := ⟨n, m, fun _ _ => white⟩

/-- Index of the first occurrence of `a` (0 when absent), kept local so the
positional tie-break statement is self-contained. -/
def idxOf (a : Int) : List Int → Nat
  | [] => 0
  | b :: t => if b = a then 0 else idxOf a t + 1

/-- A 2x3 mask whose first row has three set pixels and whose second row
has two: with the ascending scan `range(0, 2)` the two rows tie at
combined score 3. -/
def tieMask : Img Nat := ⟨2, 3, fun i j => if i = 0 then 1 else if j < 2 then 1 else 0⟩

/-- An oracle that reports the single-point contour `[(20, 20)]`, leaves
fill targets unchanged, and thins everything to a zero mask. -/
def ptOracle : CVOracle := ⟨fun _ => [[(20, 20)]], fun m _ => m, fun m => zerosLike m⟩

/-! ### General lemmas on ranges, folds and scores -/

theorem rangeLen_one (s e : Int) : rangeLen s e 1 = (e - s).toNat := by
  simp only [rangeLen]
  norm_num

theorem rangeLen_negOne (s e : Int) : rangeLen s e (-1) = (s - e).toNat := by
  simp only [rangeLen]
  norm_num

theorem length_rangeList (s e st : Int) :
    (rangeList s e st).length = rangeLen s e st := by
  rw [rangeList, List.length_map, List.length_range]

theorem rangeList_getElem (s e st : Int) (k : Nat)
    (hk : k < (rangeList s e st).length) :
    (rangeList s e st)[k] = s + (k : Int) * st := by
  rw [length_rangeList] at hk
  simp only [rangeList, List.getElem_map, List.getElem_range]

theorem mem_rangeList {s e st i : Int} (h : i ∈ rangeList s e st) :
    ∃ k : Nat, k < rangeLen s e st ∧ i = s + (k : Int) * st := by
  rw [rangeList] at h
  obtain ⟨k, hk, hke⟩ := List.mem_map.1 h
  exact ⟨k, List.mem_range.1 hk, hke.symm⟩

theorem mem_rangeList_one {s e i : Int} (h : i ∈ rangeList s e 1) :
    s ≤ i ∧ i < e := by
  obtain ⟨k, hk, rfl⟩ := mem_rangeList h
  rw [rangeLen_one] at hk
  omega

theorem mem_rangeList_negOne {s e i : Int} (h : i ∈ rangeList s e (-1)) :
    e < i ∧ i ≤ s := by
  obtain ⟨k, hk, rfl⟩ := mem_rangeList h
  rw [rangeLen_negOne] at hk
  omega

theorem rangeList_nodup (s e st : Int) : (rangeList s e st).Nodup := by
  rcases eq_or_ne st 0 with rfl | hst
  · have hlen : rangeLen s e 0 = 0 := by
      rw [rangeLen]
      norm_num
    rw [rangeList, hlen]
    exact List.nodup_nil
  · rw [rangeList]
    refine List.Nodup.map ?_ (List.nodup_range _)
    intro a b hab
    dsimp only at hab
    have h2 : (a : Int) * st = (b : Int) * st := by linarith
    exact Nat.cast_injective (mul_right_cancel₀ hst h2)

example : rangeList 2 (-1) (-1) = [2, 1, 0] := by decide
example : rangeList 3 5 1 = [3, 4] := by decide
example : rangeList 3 3 1 = [] := by decide
example : rangeList 5 3 1 = [] := by decide

/-- The scan loop keeps the initial index or picks a visited index. -/
theorem foldl_bestStep_mem (f : Int → ℚ) :
    ∀ (l : List Int) (b : Int) (m : ℚ),
      (l.foldl (bestStep f) (b, m)).1 = b ∨ (l.foldl (bestStep f) (b, m)).1 ∈ l := by
  intro l
  induction l with
  | nil => intro b m; exact Or.inl rfl
  | cons a t ih =>
    intro b m
    rw [List.foldl_cons]
    by_cases h : f a ≥ m
    · rw [show bestStep f (b, m) a = (a, f a) from if_pos h]
      rcases ih a (f a) with h1 | h1
      · exact Or.inr (by rw [h1]; exact List.mem_cons_self a t)
      · exact Or.inr (List.mem_cons_of_mem a h1)
    · rw [show bestStep f (b, m) a = (b, m) from if_neg h]
      rcases ih b m with h1 | h1
      · exact Or.inl h1
      · exact Or.inr (List.mem_cons_of_mem a h1)

/-- Characterization of the scan loop: either no candidate ever reached the
running maximum (all scores strictly below the initial maximum, state kept),
or the final state records the score of the returned index, that score
bounds every visited score, and every candidate visited after the returned
index scored strictly below it (the `>=` update keeps the last maximizer). -/
theorem foldl_bestStep_spec (f : Int → ℚ) :
    ∀ (l : List Int) (b : Int) (m : ℚ),
      (l.foldl (bestStep f) (b, m) = (b, m) ∧ ∀ i ∈ l, f i < m) ∨
      ((l.foldl (bestStep f) (b, m)).2 = f (l.foldl (bestStep f) (b, m)).1 ∧
       m ≤ (l.foldl (bestStep f) (b, m)).2 ∧
       (∀ i ∈ l, f i ≤ (l.foldl (bestStep f) (b, m)).2) ∧
       ∃ l₁ l₂, l = l₁ ++ (l.foldl (bestStep f) (b, m)).1 :: l₂ ∧
         ∀ i ∈ l₂, f i < (l.foldl (bestStep f) (b, m)).2) := by
  intro l
  induction l with
  | nil => intro b m; exact Or.inl ⟨rfl, by intro i hi; cases hi⟩
  | cons a t ih =>
    intro b m
    rw [List.foldl_cons]
    by_cases h : f a ≥ m
    · rw [show bestStep f (b, m) a = (a, f a) from if_pos h]
      rcases ih a (f a) with ⟨heq, hall⟩ | ⟨h2, h3, h4, l₁, l₂, hsp, h5⟩
      · refine Or.inr ?_
        rw [heq]
        refine ⟨rfl, h, ?_, [], t, by simp, ?_⟩
        · intro i hi
          rcases List.mem_cons.1 hi with rfl | hit
          · exact le_refl _
          · exact le_of_lt (hall i hit)
        · intro i hi
          exact hall i hi
      · refine Or.inr ⟨h2, le_trans h h3, ?_, a :: l₁, l₂, ?_, h5⟩
        · intro i hi
          rcases List.mem_cons.1 hi with rfl | hit
          · exact h3
          · exact h4 i hit
        · rw [List.cons_append]
          exact congrArg (List.cons a) hsp
    · rw [show bestStep f (b, m) a = (b, m) from if_neg h]
      rcases ih b m with ⟨heq, hall⟩ | ⟨h2, h3, h4, l₁, l₂, hsp, h5⟩
      · refine Or.inl ⟨heq, ?_⟩
        intro i hi
        rcases List.mem_cons.1 hi with rfl | hit
        · exact lt_of_not_ge h
        · exact hall i hit
      · refine Or.inr ⟨h2, h3, ?_, a :: l₁, l₂, ?_, h5⟩
        · intro i hi
          rcases List.mem_cons.1 hi with rfl | hit
          · exact le_trans (le_of_lt (lt_of_not_ge h)) h3
          · exact h4 i hit
        · rw [List.cons_append]
          exact congrArg (List.cons a) hsp

/-- When every candidate scores zero and the running maximum starts at a
nonpositive value, every iteration overwrites, so the last candidate wins. -/
theorem foldl_bestStep_allZero (f : Int → ℚ) :
    ∀ (l : List Int) (hne : l ≠ []) (b : Int) (m : ℚ), m ≤ 0 →
      (∀ i ∈ l, f i = 0) → (l.foldl (bestStep f) (b, m)).1 = l.getLast hne := by
  intro l
  induction l with
  | nil => intro hne; exact absurd rfl hne
  | cons a t ih =>
    intro hne b m hm hall
    have ha : f a = 0 := hall a (List.mem_cons_self a t)
    have hstep : bestStep f (b, m) a = (a, f a) :=
      if_pos (by rw [ha]; exact hm)
    rw [List.foldl_cons, hstep]
    rcases List.eq_nil_or_concat t with rfl | _
    · rw [List.foldl_nil]
      rfl
    · have htne : t ≠ [] := by
        rcases t with _ | ⟨x, xs⟩
        · rename_i hcat
          obtain ⟨l2, a2, hl2⟩ := hcat
          exact absurd hl2.symm (List.concat_ne_nil a2 l2)
        · exact List.cons_ne_nil x xs
      rw [List.getLast_cons htne]
      exact ih htne a (f a) (by rw [ha]) (fun i hi => hall i (List.mem_cons_of_mem a hi))

theorem idxOf_append_of_notMem {a : Int} {l₂ : List Int} :
    ∀ {l₁ : List Int}, a ∉ l₁ → idxOf a (l₁ ++ l₂) = l₁.length + idxOf a l₂ := by
  intro l₁
  induction l₁ with
  | nil => intro _; simp [idxOf]
  | cons b t ih =>
    intro hmem
    have hba : ¬ b = a := fun hba => hmem (by rw [hba]; exact List.mem_cons_self a t)
    rw [List.cons_append, idxOf, if_neg hba, ih (fun hat => hmem (List.mem_cons_of_mem b hat))]
    simp [List.length_cons]
    omega

theorem idxOf_append_lt_of_mem {a : Int} {l₂ : List Int} :
    ∀ {l₁ : List Int}, a ∈ l₁ → idxOf a (l₁ ++ l₂) < l₁.length := by
  intro l₁
  induction l₁ with
  | nil => intro hmem; cases hmem
  | cons b t ih =>
    intro hmem
    rw [List.cons_append, idxOf]
    by_cases hba : b = a
    · rw [if_pos hba]
      simp
    · rw [if_neg hba]
      have hat : a ∈ t := by
        rcases List.mem_cons.1 hmem with rfl | hat
        · exact absurd rfl hba
        · exact hat
      have := ih hat
      simp [List.length_cons]
      omega

/-- Scores are products of a nonnegative count and a factor at least one. -/
theorem combined_score_nonneg (m : Img Nat) (axis : Nat) (r : ScanRange) (i : Int) :
    0 ≤ combined_score m axis r i := by
  unfold combined_score position_weight
  have h1 : (0 : ℚ) ≤ (lineScore m axis i : ℚ) := Nat.cast_nonneg _
  have h2 : (0 : ℚ) ≤ ((i - r.start).natAbs : ℚ) / (((r.stop - r.start).natAbs : ℚ)) :=
    div_nonneg (Nat.cast_nonneg _) (Nat.cast_nonneg _)
  nlinarith

theorem maxBy_mem (f : List Pt → ℚ) (x : List Pt) (xs : List (List Pt)) :
    maxBy f x xs = x ∨ maxBy f x xs ∈ xs := by
  unfold maxBy
  induction xs generalizing x with
  | nil => exact Or.inl rfl
  | cons a t ih =>
    rw [List.foldl_cons]
    by_cases h : f a > f x
    · rw [if_pos h]
      rcases ih a with h1 | h1
      · exact Or.inr (by rw [h1]; exact List.mem_cons_self a t)
      · exact Or.inr (List.mem_cons_of_mem a h1)
    · rw [if_neg h]
      rcases ih x with h1 | h1
      · exact Or.inl h1
      · exact Or.inr (List.mem_cons_of_mem a h1)

/-! ### Helper lemmas about the scorer, shared by several claims -/

/-- On a zero-span range the scorer returns the start index at once. -/
theorem find_span_zero (r : ScanRange) (hspan : (r.stop - r.start).natAbs = 0)
    (m : Img Nat) (axis : Nat) : find_best_border_line m axis r = r.start := by
  unfold find_best_border_line
  rw [if_pos hspan]

/-- A zero-span range holds no iteration. -/
theorem span_zero_toList (r : ScanRange) (hspan : (r.stop - r.start).natAbs = 0) :
    r.toList = [] := by
  have hlen : rangeLen r.start r.stop r.step = 0 := by
    rw [rangeLen]
    split
    · rename_i h
      have h1 : r.stop - r.start + r.step - 1 = r.step - 1 := by omega
      rw [h1, Int.ediv_eq_zero_of_lt (by omega) (by omega)]
      rfl
    · split
      · rename_i h h2
        have h1 : r.start - r.stop - r.step - 1 = -r.step - 1 := by omega
        rw [h1, Int.ediv_eq_zero_of_lt (by omega) (by omega)]
        rfl
      · rfl
  show (List.range (rangeLen r.start r.stop r.step)).map _ = []
  rw [hlen]
  rfl

/-- On an all-zero mask with a nonzero-span, nonempty range, the scorer
returns the last visited index. -/
theorem find_blank (m : Img Nat) (axis : Nat) (r : ScanRange)
    (hzero : ∀ i j, m.pix i j = 0)
    (hspan : (r.stop - r.start).natAbs ≠ 0)
    (hne : r.toList ≠ []) :
    find_best_border_line m axis r = r.toList.getLast hne := by
  unfold find_best_border_line
  rw [if_neg hspan]
  apply foldl_bestStep_allZero _ _ hne _ _ (by norm_num)
  intro i _
  have hline : lineScore m axis i = 0 := by
    unfold lineScore countRow countCol
    split <;> simp [hzero]
  unfold combined_score
  rw [hline]
  norm_num

/-- The scorer returns the range start or a member of the range. -/
theorem find_start_or_mem (m : Img Nat) (axis : Nat) (r : ScanRange) :
    find_best_border_line m axis r = r.start ∨
    find_best_border_line m axis r ∈ r.toList := by
  unfold find_best_border_line
  by_cases hspan : (r.stop - r.start).natAbs = 0
  · rw [if_pos hspan]
    exact Or.inl rfl
  · rw [if_neg hspan]
    exact foldl_bestStep_mem (combined_score m axis r) r.toList r.start (-1)

/-- `int(n * frac)` is nonnegative for a nonnegative fraction. -/
theorem searchEnd_nonneg (n : Nat) (frac : ℚ) (h : 0 ≤ frac) :
    0 ≤ searchEnd n frac :=
  Int.le_floor.2 (by positivity)

/-! ### Claims -/

/-- Claim C4: the triviality guard — a `None` input, or an input whose
height or width is below 30 pixels, is returned unchanged by
`remove_border` with no processing performed. -/
theorem c4_triviality_guard (o : CVOracle) (frac : ℚ) (pad : Int) :
    remove_border o frac pad none = none ∧
    ∀ img : Img BGR, (img.h < 30 ∨ img.w < 30) →
      remove_border o frac pad (some img) = some img := by
  refine ⟨rfl, ?_⟩
  intro img hg
  show (if img.h < 30 ∨ img.w < 30 then some img
        else some (remove_border_core o frac pad img)) = some img
  rw [if_pos hg]

theorem c4_witness :
    remove_border trivOracle (1/4) 5 none = none ∧
    remove_border trivOracle (1/4) 5 (some img2940) = some img2940 :=
  ⟨(c4_triviality_guard trivOracle (1/4) 5).1,
   (c4_triviality_guard trivOracle (1/4) 5).2 img2940 (Or.inl (by norm_num [img2940]))⟩

/-- Claim C7: on a zero-span range `find_best_border_line` returns the
start index immediately, for every mask and axis (so no pixel of the mask
is read), and the range holds no iteration at all. -/
theorem c7_zero_span (r : ScanRange) (hspan : (r.stop - r.start).natAbs = 0) :
    (∀ (m : Img Nat) (axis : Nat), find_best_border_line m axis r = r.start) ∧
    r.toList = [] :=
  ⟨fun m axis => find_span_zero r hspan m axis, span_zero_toList r hspan⟩

theorem c7_witness :
    find_best_border_line zeroMask3 1 ⟨4, 4, 1⟩ = 4 ∧
    (⟨4, 4, 1⟩ : ScanRange).toList = [] :=
  ⟨(c7_zero_span ⟨4, 4, 1⟩ (by decide)).1 zeroMask3 1,
   (c7_zero_span ⟨4, 4, 1⟩ (by decide)).2⟩

/-- Claim C10: on an all-zero mask every candidate scores zero, the initial
running maximum is -1, the non-strict update fires on every candidate, and
the scan returns the last-visited (outermost) index of the range. -/
theorem c10_blank_mask (m : Img Nat) (axis : Nat) (r : ScanRange)
    (hzero : ∀ i j, m.pix i j = 0)
    (hspan : (r.stop - r.start).natAbs ≠ 0)
    (hne : r.toList ≠ []) :
    find_best_border_line m axis r = r.toList.getLast hne :=
  find_blank m axis r hzero hspan hne

theorem c10_witness : find_best_border_line zeroMask3 1 ⟨0, 3, 1⟩ = 2 := by
  rw [c10_blank_mask zeroMask3 1 ⟨0, 3, 1⟩ (fun _ _ => rfl) (by decide) (by decide)]
  decide

/-- Claim C8: the scorer is total and returns the range start or a visited
index; and for the four scan ranges `remove_border` builds over an `h` by
`w` region of interest with a search-zone fraction below one, every visited
index is a valid row (respectively column) of the region.  The statement is
given for one extent `n`: `n = h` covers the top/bottom row scans and
`n = w` the left/right column scans, whose ranges have the same shape. -/
theorem c8_total_in_range :
    (∀ (m : Img Nat) (axis : Nat) (r : ScanRange),
        find_best_border_line m axis r = r.start ∨
        find_best_border_line m axis r ∈ r.toList) ∧
    (∀ (n : Nat) (frac : ℚ), 1 ≤ n → 0 ≤ frac → frac < 1 →
        (∀ i ∈ (⟨searchEnd n frac, -1, -1⟩ : ScanRange).toList,
            0 ≤ i ∧ i < (n : Int)) ∧
        (∀ i ∈ (⟨(n : Int) - searchEnd n frac, (n : Int), 1⟩ : ScanRange).toList,
            0 ≤ i ∧ i < (n : Int))) := by
  constructor
  · intro m axis r
    exact find_start_or_mem m axis r
  · intro n frac h1 hf0 hf1
    have hse0 : (0 : Int) ≤ searchEnd n frac := searchEnd_nonneg n frac hf0
    have hseLt : searchEnd n frac < (n : Int) := by
      rw [searchEnd, Int.floor_lt]
      push_cast
      have hn : (1 : ℚ) ≤ (n : ℚ) := by exact_mod_cast h1
      nlinarith
    constructor
    · intro i hi
      have hmem : i ∈ rangeList (searchEnd n frac) (-1) (-1) := hi
      have := mem_rangeList_negOne hmem
      omega
    · intro i hi
      have hmem : i ∈ rangeList ((n : Int) - searchEnd n frac) (n : Int) 1 := hi
      have := mem_rangeList_one hmem
      omega

theorem c8_witness :
    (find_best_border_line zeroMask3 1 ⟨2, 2, 1⟩ = 2 ∨
     find_best_border_line zeroMask3 1 ⟨2, 2, 1⟩ ∈ (⟨2, 2, 1⟩ : ScanRange).toList) ∧
    ((∀ i ∈ (⟨searchEnd 8 (1/4), -1, -1⟩ : ScanRange).toList,
         0 ≤ i ∧ i < (8 : Int)) ∧
     (∀ i ∈ (⟨(8 : Int) - searchEnd 8 (1/4), (8 : Int), 1⟩ : ScanRange).toList,
         0 ≤ i ∧ i < (8 : Int))) :=
  ⟨c8_total_in_range.1 zeroMask3 1 ⟨2, 2, 1⟩,
   c8_total_in_range.2 8 (1/4) (by norm_num) (by norm_num) (by norm_num)⟩

/-- Claim C2, counterexample: in the ascending unit-step range
`range(0, 4, 1)` (span 4, nonzero), the last-visited candidate is 3 and its
position weight is 3/4, not 1 — a Python range excludes its stop, so the
weight of the outermost visited candidate never reaches 1. -/
theorem c2_counterexample :
    (⟨0, 4, 1⟩ : ScanRange).toList.getLast? = some 3 ∧
    ((4 : Int) - 0).natAbs ≠ 0 ∧
    position_weight ⟨0, 4, 1⟩ 3 ≠ 1 := by
  refine ⟨by decide, by decide, ?_⟩
  norm_num [position_weight]

/-- Claim C2 (amended): in a unit-step range with consistent direction,
the position weight of the k-th visited candidate is `k / span`; over the
candidates in visit order it is strictly increasing, it is 0 at the
innermost (first-visited) candidate — which is the range start — and at
the outermost (last-visited) candidate it equals `(span - 1) / span`
(not 1: the stop index is excluded from the scan). -/
theorem c2_position_weight (r : ScanRange)
    (hdir : (r.step = 1 ∧ r.start < r.stop) ∨ (r.step = -1 ∧ r.stop < r.start)) :
    (∀ (k : Nat) (hk : k < r.toList.length),
        position_weight r (r.toList[k]) =
          (k : ℚ) / (((r.stop - r.start).natAbs : ℚ))) ∧
    (∀ (k₁ k₂ : Nat) (hk₁ : k₁ < r.toList.length) (hk₂ : k₂ < r.toList.length),
        k₁ < k₂ →
        position_weight r (r.toList[k₁]) < position_weight r (r.toList[k₂])) ∧
    ∀ (hne : r.toList ≠ []),
        r.toList.head hne = r.start ∧
        position_weight r (r.toList.head hne) = 0 ∧
        position_weight r (r.toList.getLast hne) =
          ((((r.stop - r.start).natAbs : ℚ)) - 1) /
            (((r.stop - r.start).natAbs : ℚ)) := by
  have hgetE : ∀ (k : Nat) (hk : k < r.toList.length),
      r.toList[k] = r.start + (k : Int) * r.step := by
    intro k hk
    exact rangeList_getElem r.start r.stop r.step k hk
  have hspan : 0 < (r.stop - r.start).natAbs := by
    rcases hdir with ⟨h1, h2⟩ | ⟨h1, h2⟩ <;> omega
  have hspanQ : (0 : ℚ) < (((r.stop - r.start).natAbs : ℚ)) := by
    exact_mod_cast hspan
  have hpw : ∀ (k : Nat) (hk : k < r.toList.length),
      position_weight r (r.toList[k]) =
        (k : ℚ) / (((r.stop - r.start).natAbs : ℚ)) := by
    intro k hk
    rw [hgetE k hk]
    unfold position_weight
    have habs : ((r.start + (k : Int) * r.step) - r.start).natAbs = k := by
      rcases hdir with ⟨h1, _⟩ | ⟨h1, _⟩ <;> rw [h1] <;> omega
    rw [habs]
  have hlen : r.toList.length = (r.stop - r.start).natAbs := by
    show (rangeList r.start r.stop r.step).length = _
    rw [length_rangeList]
    rcases hdir with ⟨h1, h2⟩ | ⟨h1, h2⟩ <;> rw [h1]
    · rw [rangeLen_one]
      omega
    · rw [rangeLen_negOne]
      omega
  refine ⟨hpw, ?_, ?_⟩
  · intro k₁ k₂ hk₁ hk₂ hlt
    rw [hpw k₁ hk₁, hpw k₂ hk₂]
    have : (k₁ : ℚ) < (k₂ : ℚ) := by exact_mod_cast hlt
    gcongr
  · intro hne
    have h0 : 0 < r.toList.length := List.length_pos.mpr hne
    have hhead : r.toList.head hne = r.toList[0] := List.head_eq_getElem_zero hne
    have hb : r.toList.length - 1 < r.toList.length := by omega
    have hlast : r.toList.getLast hne = r.toList[r.toList.length - 1] :=
      List.getLast_eq_getElem r.toList hne
    refine ⟨?_, ?_, ?_⟩
    · rw [hhead, hgetE 0 h0]
      norm_num
    · rw [hhead, hpw 0 h0]
      norm_num
    · rw [hlast, hpw (r.toList.length - 1) (by omega)]
      have h1span : 1 ≤ (r.stop - r.start).natAbs := hspan
      rw [hlen]
      rw [Nat.cast_sub h1span]
      norm_num

theorem c2_witness :
    (∀ (k : Nat) (hk : k < (⟨2, -1, -1⟩ : ScanRange).toList.length),
        position_weight ⟨2, -1, -1⟩ ((⟨2, -1, -1⟩ : ScanRange).toList[k]) =
          (k : ℚ) / ((((-1 : Int) - 2).natAbs : ℚ))) ∧
    (∀ (k₁ k₂ : Nat) (hk₁ : k₁ < (⟨2, -1, -1⟩ : ScanRange).toList.length)
        (hk₂ : k₂ < (⟨2, -1, -1⟩ : ScanRange).toList.length),
        k₁ < k₂ →
        position_weight ⟨2, -1, -1⟩ ((⟨2, -1, -1⟩ : ScanRange).toList[k₁]) <
          position_weight ⟨2, -1, -1⟩ ((⟨2, -1, -1⟩ : ScanRange).toList[k₂])) ∧
    ∀ (hne : (⟨2, -1, -1⟩ : ScanRange).toList ≠ []),
        (⟨2, -1, -1⟩ : ScanRange).toList.head hne = 2 ∧
        position_weight ⟨2, -1, -1⟩ ((⟨2, -1, -1⟩ : ScanRange).toList.head hne) = 0 ∧
        position_weight ⟨2, -1, -1⟩ ((⟨2, -1, -1⟩ : ScanRange).toList.getLast hne) =
          (((((-1 : Int) - 2).natAbs : ℚ)) - 1) / ((((-1 : Int) - 2).natAbs : ℚ)) :=
  c2_position_weight ⟨2, -1, -1⟩ (Or.inr ⟨rfl, by norm_num⟩)

/-- Claim C3: tie-break direction.  If two candidates of a nonzero-span
scan both attain the maximal combined score (and no other candidate does),
the scorer returns the later-visited of the two: the `>=` update overwrites
the running maximum on equality. -/
theorem c3_tiebreak (m : Img Nat) (axis : Nat) (r : ScanRange) (i₁ i₂ : Int)
    (hspan : (r.stop - r.start).natAbs ≠ 0)
    (h₁ : i₁ ∈ r.toList) (h₂ : i₂ ∈ r.toList)
    (hidx : idxOf i₁ r.toList < idxOf i₂ r.toList)
    (htie : combined_score m axis r i₁ = combined_score m axis r i₂)
    (hmax : ∀ j ∈ r.toList, combined_score m axis r j ≤ combined_score m axis r i₁)
    (honly : ∀ j ∈ r.toList,
        combined_score m axis r j = combined_score m axis r i₁ → j = i₁ ∨ j = i₂) :
    find_best_border_line m axis r = i₂ := by
  unfold find_best_border_line
  rw [if_neg hspan]
  set f := combined_score m axis r with hf
  set l := r.toList with hl
  set F := l.foldl (bestStep f) (r.start, -1) with hF
  rcases foldl_bestStep_spec f l r.start (-1) with ⟨_, hall⟩ | ⟨h2, _, h4, l₁, l₂, hsp, h5⟩
  · exfalso
    have hlt : f i₁ < -1 := hall i₁ h₁
    have hge : (0 : ℚ) ≤ f i₁ := combined_score_nonneg m axis r i₁
    linarith
  · have hR1mem : F.1 ∈ l := by
      rw [hsp]
      exact List.mem_append_right l₁ (List.mem_cons_self _ _)
    have hfR1 : f F.1 = f i₁ :=
      le_antisymm (hmax F.1 hR1mem) (le_of_le_of_eq (h4 i₁ h₁) h2)
    rcases honly F.1 hR1mem hfR1 with hcase | hcase
    · exfalso
      have hnd : l.Nodup := rangeList_nodup _ _ _
      rw [hcase] at hsp h2
      have hnotmem : i₁ ∉ l₁ := by
        have hnd2 : (l₁ ++ i₁ :: l₂).Nodup := hsp ▸ hnd
        have hdisj := List.disjoint_of_nodup_append hnd2
        intro hmem1
        exact hdisj hmem1 (List.mem_cons_self _ _)
      have hidx1 : idxOf i₁ l = l₁.length := by
        rw [hsp, idxOf_append_of_notMem hnotmem]
        have hz : idxOf i₁ (i₁ :: l₂) = 0 := by
          simp [idxOf]
        rw [hz]
        omega
      have h₂l : i₂ ∈ l₁ ++ i₁ :: l₂ := hsp ▸ h₂
      rcases List.mem_append.1 h₂l with hin1 | hin2
      · have hlt2 : idxOf i₂ (l₁ ++ i₁ :: l₂) < l₁.length :=
          idxOf_append_lt_of_mem hin1
        rw [← hsp] at hlt2
        omega
      · rcases List.mem_cons.1 hin2 with heq2 | hin3
        · rw [heq2] at hidx
          exact lt_irrefl _ hidx
        · have hlt3 : f i₂ < F.2 := h5 i₂ hin3
          rw [h2, ← htie] at hlt3
          exact lt_irrefl _ hlt3
    · exact hcase

/-- Claim C9: frame condition on the input buffer.  In the buffer store of
one `remove_border` call the input panel occupies index 0; after the call,
on every path (guard pass-through, no-contour pass-through, degenerate
rectangle, undersized crop, successful crop), buffer 0 still holds the
original panel pixels: the only in-place write of the routine targets the
freshly allocated `filled_mask` buffer, and padding and cropping derive
from the padded copy, never from the input buffer. -/
theorem c9_no_input_mutation (o : CVOracle) (frac : ℚ) (pad : Int) (panel : Img BGR) :
    ((remove_border_st o frac pad panel).1).head? = some (Buf.colorB panel) := by
  unfold remove_border_st
  split
  · rfl
  · dsimp only
    split
    · rfl
    · split
      · rfl
      · split
        · rfl
        · rfl

/-- Returning the original when `cv.findContours` reports no contours
(src/app.py lines 99-100). -/
theorem remove_border_no_contours (o : CVOracle) (frac : ℚ) (pad : Int)
    (panel : Img BGR) (hguard : ¬(panel.h < 30 ∨ panel.w < 30))
    (hempty : o.findContoursO (threshOf panel) = []) :
    remove_border o frac pad (some panel) = some panel := by
  show (if panel.h < 30 ∨ panel.w < 30 then some panel
        else some (remove_border_core o frac pad panel)) = some panel
  rw [if_neg hguard]
  unfold remove_border_core
  rw [hempty]

/-- The binarized form of an all-white panel has no foreground pixel. -/
theorem threshOf_allWhite (n m i j : Nat) :
    (threshOf (allWhite n m)).pix i j = 0 := by
  show (if 240 < bgr2gray ((paddedOf (allWhite n m)).pix i j) then 0 else 255) = 0
  have hpix : (paddedOf (allWhite n m)).pix i j = white := by
    show (if 15 ≤ i ∧ i < 15 + (allWhite n m).h ∧ 15 ≤ j ∧ j < 15 + (allWhite n m).w
          then (allWhite n m).pix (i - 15) (j - 15) else white) = white
    split <;> rfl
  have hgray : bgr2gray white = 255 := by norm_num [bgr2gray, white]
  rw [hpix, hgray]
  norm_num

/-- Claim C5: no-contour pass-through.  If the padded, binarized input
yields no external contours, `remove_border` returns the original unpadded
input unchanged; in particular this happens for an all-white 100x100 input
(no pixel has intensity at most 240, so any sound contour report is empty),
whose output is the input itself.  -/
theorem c5_no_contour_passthrough :
    (∀ (o : CVOracle) (frac : ℚ) (pad : Int) (panel : Img BGR),
        ¬(panel.h < 30 ∨ panel.w < 30) →
        o.findContoursO (threshOf panel) = [] →
        remove_border o frac pad (some panel) = some panel) ∧
    (∀ (o : CVOracle) (frac : ℚ) (pad : Int),
        ContoursSound o (threshOf (allWhite 100 100)) →
        remove_border o frac pad (some (allWhite 100 100)) =
          some (allWhite 100 100)) := by
  constructor
  · exact remove_border_no_contours
  · intro o frac pad hsound
    have hempty : o.findContoursO (threshOf (allWhite 100 100)) = [] := by
      rcases hc : o.findContoursO (threshOf (allWhite 100 100)) with _ | ⟨c, rest⟩
      · rfl
      · exfalso
        obtain ⟨hne, hfg⟩ := hsound c (by rw [hc]; exact List.mem_cons_self _ _)
        obtain ⟨p, hp⟩ := List.exists_mem_of_ne_nil c hne
        exact hfg p hp (threshOf_allWhite 100 100 p.2 p.1)
    exact remove_border_no_contours o frac pad (allWhite 100 100)
      (by norm_num [allWhite]) hempty

theorem c5_witness :
    remove_border trivOracle (1/4) 5 (some (allWhite 100 100)) =
      some (allWhite 100 100) :=
  c5_no_contour_passthrough.2 trivOracle (1/4) 5
    (by intro c hc; cases hc)

theorem c3_witness : find_best_border_line tieMask 1 ⟨0, 2, 1⟩ = 1 := by
  have hrow0 : lineScore tieMask 1 0 = 3 := by decide
  have hrow1 : lineScore tieMask 1 1 = 2 := by decide
  have hpw0 : position_weight ⟨0, 2, 1⟩ 0 = 0 := by
    unfold position_weight
    norm_num
  have hpw1 : position_weight ⟨0, 2, 1⟩ 1 = 1/2 := by
    unfold position_weight
    norm_num
  have hs0 : combined_score tieMask 1 ⟨0, 2, 1⟩ 0 = 3 := by
    rw [combined_score, hrow0, hpw0]
    norm_num
  have hs1 : combined_score tieMask 1 ⟨0, 2, 1⟩ 1 = 3 := by
    rw [combined_score, hrow1, hpw1]
    norm_num
  have hlist : (⟨0, 2, 1⟩ : ScanRange).toList = [0, 1] := by decide
  apply c3_tiebreak tieMask 1 ⟨0, 2, 1⟩ 0 1 (by decide) (by decide) (by decide) (by decide)
  · rw [hs0, hs1]
  · intro j hj
    rw [hlist] at hj
    have : j = 0 ∨ j = 1 := by simpa using hj
    rcases this with rfl | rfl
    · exact le_refl _
    · rw [hs1, hs0]
  · intro j hj _
    rw [hlist] at hj
    simpa using hj

/-- Claim C6: crop validation.  For an input reaching the crop stage (some
contour was found), with `q` the computed crop rectangle: if `q` is
degenerate or inverted (`x1 >= x2` or `y1 >= y2`) the original unpadded
input is returned; and if the crop of the padded image at `q` has either
dimension below 10 pixels the original unpadded input is returned as well. -/
theorem c6_crop_validation (o : CVOracle) (frac : ℚ) (pad : Int)
    (panel : Img BGR) (c : List Pt) (rest : List (List Pt)) (q : Crop4)
    (hguard : ¬(panel.h < 30 ∨ panel.w < 30))
    (hcont : o.findContoursO (threshOf panel) = c :: rest)
    (hq : cropRectOf o frac pad panel (maxBy contourArea c rest) = q) :
    (q.x1 ≥ q.x2 ∨ q.y1 ≥ q.y2 →
        remove_border o frac pad (some panel) = some panel) ∧
    ((cropImg (paddedOf panel) q.y1 q.y2 q.x1 q.x2).h < 10 ∨
        (cropImg (paddedOf panel) q.y1 q.y2 q.x1 q.x2).w < 10 →
        remove_border o frac pad (some panel) = some panel) := by
  have hbase : remove_border o frac pad (some panel) =
      some (remove_border_core o frac pad panel) := by
    show (if panel.h < 30 ∨ panel.w < 30 then some panel
          else some (remove_border_core o frac pad panel)) = _
    rw [if_neg hguard]
  have hcore : remove_border_core o frac pad panel =
      (if q.x1 ≥ q.x2 ∨ q.y1 ≥ q.y2 then panel
       else
        if (cropImg (paddedOf panel) q.y1 q.y2 q.x1 q.x2).h < 10 ∨
            (cropImg (paddedOf panel) q.y1 q.y2 q.x1 q.x2).w < 10 then panel
        else cropImg (paddedOf panel) q.y1 q.y2 q.x1 q.x2) := by
    unfold remove_border_core
    rw [hcont]
    dsimp only
    rw [hq]
  constructor
  · intro hdeg
    rw [hbase, hcore, if_pos hdeg]
  · intro hsmall
    rw [hbase, hcore]
    by_cases hdeg : q.x1 ≥ q.x2 ∨ q.y1 ≥ q.y2
    · rw [if_pos hdeg]
    · rw [if_neg hdeg, if_pos hsmall]

theorem c6_witness :
    remove_border ptOracle (1/4) 5 (some (allWhite 30 30)) =
      some (allWhite 30 30) := by
  have hbr : boundingRect [((20, 20) : Pt)] = ⟨20, 20, 1, 1⟩ := rfl
  have hmax : maxBy contourArea [((20, 20) : Pt)] [] = [(20, 20)] := rfl
  have hse : searchEnd 1 (1/4) = 0 := by
    rw [searchEnd]
    norm_num
  have hroi : ∀ i j, (roiOf ptOracle (allWhite 30 30) [((20, 20) : Pt)]).pix i j = 0 :=
    fun i j => rfl
  have hbt : find_best_border_line (roiOf ptOracle (allWhite 30 30) [((20, 20) : Pt)])
      1 ⟨0, -1, -1⟩ = 0 := by
    rw [find_blank _ 1 ⟨0, -1, -1⟩ hroi (by decide) (by decide)]
    decide
  have hbl : find_best_border_line (roiOf ptOracle (allWhite 30 30) [((20, 20) : Pt)])
      0 ⟨0, -1, -1⟩ = 0 := by
    rw [find_blank _ 0 ⟨0, -1, -1⟩ hroi (by decide) (by decide)]
    decide
  have hbb : find_best_border_line (roiOf ptOracle (allWhite 30 30) [((20, 20) : Pt)])
      1 ⟨(1 : Int) - 0, (1 : Int), 1⟩ = 1 :=
    find_span_zero ⟨(1 : Int) - 0, (1 : Int), 1⟩ (by decide) _ 1
  have hbr2 : find_best_border_line (roiOf ptOracle (allWhite 30 30) [((20, 20) : Pt)])
      0 ⟨(1 : Int) - 0, (1 : Int), 1⟩ = 1 :=
    find_span_zero ⟨(1 : Int) - 0, (1 : Int), 1⟩ (by decide) _ 0
  have hscan : borderScan ptOracle (1/4) (allWhite 30 30) [((20, 20) : Pt)] =
      ⟨0, 1, 0, 1⟩ := by
    unfold borderScan
    rw [hbr]
    dsimp only
    rw [hse]
    simp only [Nat.cast_one]
    rw [hbt, hbl, hbb, hbr2]
  have hq : cropRectOf ptOracle (1/4) 5 (allWhite 30 30)
      (maxBy contourArea [((20, 20) : Pt)] []) = ⟨25, 25, 16, 16⟩ := by
    rw [hmax]
    unfold cropRectOf
    rw [hbr, hscan]
    dsimp only
    norm_num [Crop4.mk.injEq]
  exact (c6_crop_validation ptOracle (1/4) 5 (allWhite 30 30) [(20, 20)] []
    ⟨25, 25, 16, 16⟩ (by norm_num [allWhite]) rfl hq).1 (by norm_num)

/-! ### Helper lemmas for the size-monotonicity claim -/

theorem foldl_min_le_init (l : List Nat) : ∀ n : Nat, l.foldl min n ≤ n := by
  induction l with
  | nil => intro n; exact le_refl n
  | cons a t ih =>
    intro n
    rw [List.foldl_cons]
    exact le_trans (ih (min n a)) (min_le_left n a)

theorem le_foldl_min (l : List Nat) {m : Nat} :
    ∀ {n : Nat}, m ≤ n → (∀ a ∈ l, m ≤ a) → m ≤ l.foldl min n := by
  induction l with
  | nil => intro n hn _; exact hn
  | cons a t ih =>
    intro n hn hall
    rw [List.foldl_cons]
    exact ih (le_min hn (hall a (List.mem_cons_self _ _)))
      (fun b hb => hall b (List.mem_cons_of_mem a hb))

theorem le_foldl_max (l : List Nat) : ∀ n : Nat, n ≤ l.foldl max n := by
  induction l with
  | nil => intro n; exact le_refl n
  | cons a t ih =>
    intro n
    rw [List.foldl_cons]
    exact le_trans (le_max_left n a) (ih (max n a))

theorem foldl_max_le (l : List Nat) {m : Nat} :
    ∀ {n : Nat}, n ≤ m → (∀ a ∈ l, a ≤ m) → l.foldl max n ≤ m := by
  induction l with
  | nil => intro n hn _; exact hn
  | cons a t ih =>
    intro n hn hall
    rw [List.foldl_cons]
    exact ih (max_le hn (hall a (List.mem_cons_self _ _)))
      (fun b hb => hall b (List.mem_cons_of_mem a hb))

/-- Foreground pixels of the binarized padded panel lie strictly inside the
15-pixel padding frame: the padding is white, white converts to gray 255,
and 255 exceeds the 240 threshold, so it binarizes to background. -/
theorem thresh_support (panel : Img BGR) {i j : Nat}
    (h : (threshOf panel).pix i j ≠ 0) :
    15 ≤ i ∧ i < 15 + panel.h ∧ 15 ≤ j ∧ j < 15 + panel.w := by
  by_contra hq
  apply h
  show (if 240 < bgr2gray ((paddedOf panel).pix i j) then 0 else 255) = 0
  have hpix : (paddedOf panel).pix i j = white := by
    show (if 15 ≤ i ∧ i < 15 + panel.h ∧ 15 ≤ j ∧ j < 15 + panel.w
          then panel.pix (i - 15) (j - 15) else white) = white
    rw [if_neg hq]
  have hgray : bgr2gray white = 255 := by norm_num [bgr2gray, white]
  rw [hpix, hgray, if_pos (by norm_num)]

/-- If every point of a nonempty contour lies in the centered `H` by `W`
window of the padded frame, its bounding rectangle is at most `H` by `W`. -/
theorem boundingRect_dims (c : List Pt) (H W : Nat) (hne : c ≠ [])
    (hbound : ∀ p ∈ c, 15 ≤ p.2 ∧ p.2 < 15 + H ∧ 15 ≤ p.1 ∧ p.1 < 15 + W) :
    (boundingRect c).h ≤ H ∧ (boundingRect c).w ≤ W := by
  rcases c with _ | ⟨p, t⟩
  · exact absurd rfl hne
  · obtain ⟨hp1, hp2, hp3, hp4⟩ := hbound p (List.mem_cons_self _ _)
    have hYall : ∀ a ∈ t.map Prod.snd, 15 ≤ a ∧ a ≤ 14 + H := by
      intro a ha
      obtain ⟨q, hq, rfl⟩ := List.mem_map.1 ha
      have := hbound q (List.mem_cons_of_mem _ hq)
      omega
    have hXall : ∀ a ∈ t.map Prod.fst, 15 ≤ a ∧ a ≤ 14 + W := by
      intro a ha
      obtain ⟨q, hq, rfl⟩ := List.mem_map.1 ha
      have := hbound q (List.mem_cons_of_mem _ hq)
      omega
    have hYlo : 15 ≤ (t.map Prod.snd).foldl min p.2 :=
      le_foldl_min _ hp1 (fun a ha => (hYall a ha).1)
    have hYhi : (t.map Prod.snd).foldl max p.2 ≤ 14 + H :=
      foldl_max_le _ (by omega) (fun a ha => (hYall a ha).2)
    have hYord : (t.map Prod.snd).foldl min p.2 ≤ p.2 := foldl_min_le_init _ _
    have hYord2 : p.2 ≤ (t.map Prod.snd).foldl max p.2 := le_foldl_max _ _
    have hXlo : 15 ≤ (t.map Prod.fst).foldl min p.1 :=
      le_foldl_min _ hp3 (fun a ha => (hXall a ha).1)
    have hXhi : (t.map Prod.fst).foldl max p.1 ≤ 14 + W :=
      foldl_max_le _ (by omega) (fun a ha => (hXall a ha).2)
    have hXord : (t.map Prod.fst).foldl min p.1 ≤ p.1 := foldl_min_le_init _ _
    have hXord2 : p.1 ≤ (t.map Prod.fst).foldl max p.1 := le_foldl_max _ _
    unfold boundingRect
    dsimp only
    constructor <;> omega

/-- The four scanned border lines stay inside the bounding rectangle:
the top and left lines are nonnegative and the bottom and right lines are
at most the rectangle extent. -/
theorem borderScan_bounds (o : CVOracle) (frac : ℚ) (panel : Img BGR)
    (largest : List Pt) (hfrac : 0 ≤ frac) :
    0 ≤ (borderScan o frac panel largest).bt ∧
    (borderScan o frac panel largest).bb ≤ ((boundingRect largest).h : Int) ∧
    0 ≤ (borderScan o frac panel largest).bl ∧
    (borderScan o frac panel largest).br ≤ ((boundingRect largest).w : Int) := by
  have htse := searchEnd_nonneg (boundingRect largest).h frac hfrac
  have hlse := searchEnd_nonneg (boundingRect largest).w frac hfrac
  unfold borderScan
  dsimp only
  refine ⟨?_, ?_, ?_, ?_⟩
  · rcases find_start_or_mem (roiOf o panel largest) 1
        ⟨searchEnd (boundingRect largest).h frac, -1, -1⟩ with h | h
    · rw [h]
      exact htse
    · have h2 : find_best_border_line (roiOf o panel largest) 1
          ⟨searchEnd (boundingRect largest).h frac, -1, -1⟩ ∈
          rangeList (searchEnd (boundingRect largest).h frac) (-1) (-1) := h
      have := mem_rangeList_negOne h2
      omega
  · rcases find_start_or_mem (roiOf o panel largest) 1
        ⟨((boundingRect largest).h : Int) - searchEnd (boundingRect largest).h frac,
         ((boundingRect largest).h : Int), 1⟩ with h | h
    · rw [h]
      show ((boundingRect largest).h : Int) - searchEnd (boundingRect largest).h frac ≤ _
      omega
    · have h2 : find_best_border_line (roiOf o panel largest) 1
          ⟨((boundingRect largest).h : Int) - searchEnd (boundingRect largest).h frac,
           ((boundingRect largest).h : Int), 1⟩ ∈
          rangeList (((boundingRect largest).h : Int) -
            searchEnd (boundingRect largest).h frac)
            ((boundingRect largest).h : Int) 1 := h
      have := mem_rangeList_one h2
      omega
  · rcases find_start_or_mem (roiOf o panel largest) 0
        ⟨searchEnd (boundingRect largest).w frac, -1, -1⟩ with h | h
    · rw [h]
      exact hlse
    · have h2 : find_best_border_line (roiOf o panel largest) 0
          ⟨searchEnd (boundingRect largest).w frac, -1, -1⟩ ∈
          rangeList (searchEnd (boundingRect largest).w frac) (-1) (-1) := h
      have := mem_rangeList_negOne h2
      omega
  · rcases find_start_or_mem (roiOf o panel largest) 0
        ⟨((boundingRect largest).w : Int) - searchEnd (boundingRect largest).w frac,
         ((boundingRect largest).w : Int), 1⟩ with h | h
    · rw [h]
      show ((boundingRect largest).w : Int) - searchEnd (boundingRect largest).w frac ≤ _
      omega
    · have h2 : find_best_border_line (roiOf o panel largest) 0
          ⟨((boundingRect largest).w : Int) - searchEnd (boundingRect largest).w frac,
           ((boundingRect largest).w : Int), 1⟩ ∈
          rangeList (((boundingRect largest).w : Int) -
            searchEnd (boundingRect largest).w frac)
            ((boundingRect largest).w : Int) 1 := h
      have := mem_rangeList_one h2
      omega

/-- Claim C1: size monotonicity.  Under a sound contour oracle, a
nonnegative search-zone fraction, and a nonnegative inward padding, the
image `remove_border` returns never exceeds the input panel in either
dimension — the 15-pixel padding is confined to the intermediate buffers
because the white frame binarizes to background, so every contour (and
hence the crop rectangle) lives inside the original extent. -/
theorem c1_size_monotonic (o : CVOracle) (frac : ℚ) (pad : Int)
    (hfrac : 0 ≤ frac) (hpad : 0 ≤ pad) (panel : Img BGR)
    (hsound : ContoursSound o (threshOf panel)) :
    ∀ out : Img BGR, remove_border o frac pad (some panel) = some out →
      out.h ≤ panel.h ∧ out.w ≤ panel.w := by
  intro out hout
  by_cases hguard : panel.h < 30 ∨ panel.w < 30
  · have h1 : remove_border o frac pad (some panel) = some panel := by
      show (if panel.h < 30 ∨ panel.w < 30 then some panel else _) = some panel
      rw [if_pos hguard]
    rw [h1] at hout
    obtain rfl := Option.some.inj hout
    exact ⟨le_refl _, le_refl _⟩
  · have h1 : remove_border o frac pad (some panel) =
        some (remove_border_core o frac pad panel) := by
      show (if panel.h < 30 ∨ panel.w < 30 then some panel else _) = _
      rw [if_neg hguard]
    rw [h1] at hout
    obtain rfl := Option.some.inj hout
    unfold remove_border_core
    rcases hc : o.findContoursO (threshOf panel) with _ | ⟨c, rest⟩
    · exact ⟨le_refl _, le_refl _⟩
    · dsimp only
      have hlmem : maxBy contourArea c rest ∈ o.findContoursO (threshOf panel) := by
        rw [hc]
        rcases maxBy_mem contourArea c rest with h | h
        · rw [h]
          exact List.mem_cons_self _ _
        · exact List.mem_cons_of_mem _ h
      obtain ⟨hcne, hfg⟩ := hsound _ hlmem
      have hbound : ∀ p ∈ maxBy contourArea c rest,
          15 ≤ p.2 ∧ p.2 < 15 + panel.h ∧ 15 ≤ p.1 ∧ p.1 < 15 + panel.w :=
        fun p hp => thresh_support panel (hfg p hp)
      obtain ⟨hH, hW⟩ := boundingRect_dims _ panel.h panel.w hcne hbound
      obtain ⟨hbt, hbb, hbl, hbr⟩ :=
        borderScan_bounds o frac panel (maxBy contourArea c rest) hfrac
      split
      · exact ⟨le_refl _, le_refl _⟩
      · split
        · exact ⟨le_refl _, le_refl _⟩
        · constructor
          · show ((cropRectOf o frac pad panel (maxBy contourArea c rest)).y2 -
                (cropRectOf o frac pad panel (maxBy contourArea c rest)).y1).toNat ≤
                panel.h
            unfold cropRectOf
            dsimp only
            omega
          · show ((cropRectOf o frac pad panel (maxBy contourArea c rest)).x2 -
                (cropRectOf o frac pad panel (maxBy contourArea c rest)).x1).toNat ≤
                panel.w
            unfold cropRectOf
            dsimp only
            omega

theorem c1_witness :
    (allWhite 5 5).h ≤ (allWhite 5 5).h ∧ (allWhite 5 5).w ≤ (allWhite 5 5).w :=
  c1_size_monotonic trivOracle (1/4) 5 (by norm_num) (by norm_num) (allWhite 5 5)
    (by intro c hc; cases hc) (allWhite 5 5)
    (by show (if (allWhite 5 5).h < 30 ∨ (allWhite 5 5).w < 30 then some (allWhite 5 5)
              else some (remove_border_core trivOracle (1/4) 5 (allWhite 5 5))) =
          some (allWhite 5 5)
        rw [if_pos (Or.inl (by norm_num [allWhite]))])

end Kumiko
